import Mathlib

/-
Verification development for the tf-keras-vis repository
(files `tf_keras_vis/utils/scores.py` and `tf_keras_vis/scorecam.py`).

Tensors are modelled with exact rational values (ℚ).  A flat, row-major
`Tensor` models the general-rank model outputs consumed by the score
functions; a nested `NTensor` (batch → flattened spatial → channel) models
the activation tensors manipulated by the Score-CAM engine.

External collaborators that are not part of the two source files (the
`listify`, `get_num_of_steps_allowed`, `standardize` and `zoom_factor`
helpers from `tf_keras_vis.utils`, the scipy `zoom` resize primitive, and
the host model's forward/predict operations) are either modelled from the
specification (marked `Modelled from the spec:`) or abstracted as fields
of `VisModel`.
-/

namespace TKV

/-! ### Rational-list helpers -/

/-- Sum of a list of rationals. -/
def qSum (l : List ℚ) : ℚ := l.foldr (· + ·) 0

/-- Arithmetic mean of a list of rationals (0 on the empty list; the empty
case is outside every theorem below, numpy/TF produce NaN there). -/
def qMean (l : List ℚ) : ℚ := qSum l / l.length

/-- Minimum of a list of rationals (`np.min` over an axis; numpy raises on
an empty axis, the model totalizes with 0 and every theorem assumes
non-emptiness). -/
def qMinL : List ℚ → ℚ
  | [] => 0
  | x :: xs => xs.foldl min x

/-- Maximum of a list of rationals (`np.max` over an axis). -/
def qMaxL : List ℚ → ℚ
  | [] => 0
  | x :: xs => xs.foldl max x

/-! ### Error taxonomy (spec §7): the Python code raises `ValueError` with
distinct messages; the model distinguishes the three kinds named by the
spec. -/

inductive VisError where
  | invalidArgument : VisError
  | invalidShape : VisError
  | invalidIndex : VisError
deriving DecidableEq, Repr

/-- Whether a call completed without raising. -/
def isOkE {α : Type} : Except VisError α → Bool
  | .ok _ => true
  | .error _ => false

instance {ε α : Type} [DecidableEq ε] [DecidableEq α] : DecidableEq (Except ε α) := fun x y =>
  match x, y with
  | .ok a, .ok b =>
    if h : a = b then isTrue (by rw [h]) else isFalse (fun hc => h (Except.ok.inj hc))
  | .error a, .error b =>
    if h : a = b then isTrue (by rw [h]) else isFalse (fun hc => h (Except.error.inj hc))
  | .ok _, .error _ => isFalse Except.noConfusion
  | .error _, .ok _ => isFalse Except.noConfusion

/-! ### Flat row-major tensor, used for score-function outputs -/

structure Tensor where
  shape : List ℕ
  data : List ℚ
deriving DecidableEq, Repr

/-- Number of axes (`output.ndim`). -/
def Tensor.ndim (t : Tensor) : ℕ := t.shape.length

/-- Size of the last axis (`output.shape[-1]`). -/
def Tensor.lastDim (t : Tensor) : ℕ := t.shape.getLastD 0

/-- Size of the first axis (`output.shape[0]`). -/
def Tensor.batchDim (t : Tensor) : ℕ := t.shape.headD 0

/-- Row-major well-formedness: the flat data holds one value per index
tuple of `shape`. -/
def Tensor.WF (t : Tensor) : Prop := t.data.length = t.shape.prod

instance (t : Tensor) : Decidable t.WF := by
  unfold Tensor.WF; infer_instance

/-! ### `scores.py` — `InactiveScore.__call__` (line 51) -/

/-- `return output * 0.0` -/
def inactiveCall (t : Tensor) : Tensor :=
  { shape := t.shape, data := t.data.map (fun x => x * 0) }

/-! ### `scores.py` — `BinaryScore` (lines 61-87)

`__init__` runs `listify(target_values, return_empty_list_if_none=False)`
(a utils helper outside the two source files: it wraps a non-list argument
into a one-element list, so the model takes the already-listified value),
rejects a `None` entry, casts each entry with `bool(...)` (the model takes
the entries already coerced, as `Option Bool`), then rejects the empty
list. -/

def binaryInit (targetValues : List (Option Bool)) : Except VisError (List Bool) :=
  if none ∈ targetValues then .error .invalidArgument
  else
    let tv := targetValues.map (fun v => v.getD false)
    if tv.length = 0 then .error .invalidArgument
    else .ok tv

/-- `BinaryScore.__call__` (lines 79-87): shape must be `(batch,)` or
`(batch, 1)`; the output is flattened (`tf.reshape(output, (-1,))`); a
single target value is repeated (`target_values * output.shape[0]`,
Python list repetition) when the batch is larger; finally
`[val if positive else 1.0 - val for val, positive in zip(output, target_values)]`
(Python `zip` truncates to the shorter sequence). -/
def binaryCall (targetValues : List Bool) (t : Tensor) : Except VisError (List ℚ) :=
  if ¬ (t.ndim = 1 ∨ (t.ndim = 2 ∧ t.shape.getD 1 0 = 1)) then .error .invalidShape
  else
    .ok ((t.data.zip
      (if targetValues.length = 1 ∧ targetValues.length < t.shape.prod then
        (List.replicate t.shape.prod targetValues).flatten
      else targetValues)).map (fun p => if p.2 then p.1 else 1 - p.1))

/-! ### `scores.py` — `CategoricalScore` (lines 97-126) -/

/-- `CategoricalScore.__init__` (lines 97-111): listified indices, `None`
entries rejected, then the empty list rejected. -/
def categoricalInit (indices : List (Option ℕ)) : Except VisError (List ℕ) :=
  if none ∈ indices then .error .invalidArgument
  else if indices.length = 0 then .error .invalidArgument
  else .ok (indices.map (fun v => v.getD 0))

/-- The value list selected by `output[i, ..., index]` for batch element
`i` and final-axis position `index`: in row-major layout these are the
entries at `i * rest.prod + j * lastDim + index` for each flattened middle
index `j`. -/
def catSliceValues (t : Tensor) (i index : ℕ) : List ℚ :=
  let rest := t.shape.tail
  let c := t.lastDim
  let midProd := rest.dropLast.prod
  (List.range midProd).map (fun j => t.data.getD (i * rest.prod + j * c + index) 0)

/-- `CategoricalScore.__call__` (lines 113-126): rank check, index-range
check against `output.shape[-1] <= max(self.indices)`, broadcast of a
single index by Python list repetition, then
`tf.stack([output[i, ..., index] ...])` followed by `reduce_mean` over all
non-batch axes — per selected slice this is the mean of its values. -/
def categoricalCall (indices : List ℕ) (t : Tensor) : Except VisError (List ℚ) :=
  if t.ndim < 2 then .error .invalidShape
  else if t.lastDim ≤ indices.foldr Nat.max 0 then .error .invalidIndex
  else
    .ok ((if indices.length = 1 ∧ indices.length < t.batchDim then
        (List.replicate t.batchDim indices).flatten
      else indices).enum.map (fun p => qMean (catSliceValues t p.1 p.2)))

/-! ### Nested tensors for the Score-CAM engine (`scorecam.py`)

An `NTensor` models a tensor of shape `(batch, spatial..., channels)`:
`spatial` records the spatial shape, and `data` holds the values indexed
as batch → row-major-flattened spatial position → channel.  A `Cam`
models a tensor of shape `(batch, spatial...)`. -/

structure NTensor where
  spatial : List ℕ
  channels : ℕ
  data : List (List (List ℚ))
deriving DecidableEq, Repr

/-- Well-formedness: every batch row has one entry per flattened spatial
position and every position holds one value per channel. -/
def NTensor.WF (t : NTensor) : Prop :=
  ∀ row ∈ t.data, row.length = t.spatial.prod ∧ ∀ ch ∈ row, ch.length = t.channels

instance (t : NTensor) : Decidable t.WF := by
  unfold NTensor.WF; infer_instance

/-- The value at batch `b`, flattened spatial position `s`, channel `c`. -/
def NTensor.entryAt (t : NTensor) (b s c : ℕ) : ℚ :=
  ((t.data.getD b []).getD s []).getD c 0

/-- The full shape `(batch, spatial..., channels)` of an `NTensor`. -/
def NTensor.fullShape (t : NTensor) : List ℕ :=
  t.data.length :: t.spatial ++ [t.channels]

structure Cam where
  spatial : List ℕ
  data : List (List ℚ)
deriving DecidableEq, Repr

/-- The full shape `(batch, spatial...)` of a `Cam`. -/
def Cam.fullShape (c : Cam) : List ℕ := c.data.length :: c.spatial

/-! ### Index coding between flattened and multi-dimensional spatial
positions (row-major). -/

def decodeIdx : List ℕ → ℕ → List ℕ
  | [], _ => []
  | _ :: ds, n => n / ds.prod :: decodeIdx ds (n % ds.prod)

def encodeIdx : List ℕ → List ℕ → ℕ
  | [], _ => 0
  | _ :: _, [] => 0
  | _ :: ds, i :: is => i * ds.prod + encodeIdx ds is

/-! ### Resize collaborators -/

/-- Modelled from the spec: `zoom_factor` (a `tf_keras_vis.utils` helper
outside the two source files) computes the per-axis resize factors
`target_shape / source_shape`, pairing axes up to the shorter rank. -/
def zoomFactors (fromShape toShape : List ℕ) : List ℚ :=
  (fromShape.zip toShape).map (fun p => (p.2 : ℚ) / (p.1 : ℚ))

/-- Output dimension of the resize primitive: `round(dim * factor)`.
(The spec only fixes the exact-factor case, where the product is an
integer; the rounding mode at half-integers is irrelevant there.) -/
def ratRound (q : ℚ) : ℕ := (⌊q + 1 / 2⌋).toNat

/-- Per-axis resized shape, pairing axes with the available factors. -/
def zoomShape (factors : List ℚ) (shape : List ℕ) : List ℕ :=
  (shape.zip factors).map (fun p => ratRound ((p.1 : ℚ) * p.2))

/-- Source index corresponding to a target index under a resize factor. -/
def natScale (n : ℕ) (q : ℚ) : ℕ := (⌊(n : ℚ) / q⌋).toNat

/-- Modelled from the spec: the external resize primitive (scipy `zoom`)
applied to a `(batch, spatial...)` tensor — per-axis scale factors, output
dims `round(dim * factor)`, nearest-neighbour resampling (the spec allows
any interpolation consistent with the factors). -/
def zoomCam (factors : List ℚ) (c : Cam) : Cam :=
  let newShape := zoomShape factors c.fullShape
  let nb := newShape.headD 0
  let nsp := newShape.tail
  { spatial := nsp,
    data := (List.range nb).map (fun b =>
      (List.range nsp.prod).map (fun s =>
        let ob := natScale b (factors.headD 1)
        let osp := List.zipWith natScale (decodeIdx nsp s) factors.tail
        (c.data.getD ob []).getD (encodeIdx c.spatial osp) 0)) }

/-- Modelled from the spec: the external resize primitive applied to a
`(batch, spatial..., channels)` tensor (scorecam.py line 132 calls it with
the channel factor fixed to 1). -/
def zoomNT (factors : List ℚ) (t : NTensor) : NTensor :=
  let newShape := zoomShape factors t.fullShape
  let nb := newShape.headD 0
  let nc := newShape.getLastD 0
  let nsp := newShape.tail.dropLast
  { spatial := nsp, channels := nc,
    data := (List.range nb).map (fun b =>
      (List.range nsp.prod).map (fun s =>
        (List.range nc).map (fun c =>
          let ob := natScale b (factors.headD 1)
          let osp := List.zipWith natScale (decodeIdx nsp s) factors.tail
          let oc := natScale c (factors.getD (1 + nsp.length) 1)
          ((t.data.getD ob []).getD (encodeIdx t.spatial osp) []).getD oc 0))) }

/-! ### Faster-Score-CAM channel subsampling (`scorecam.py` lines 109-126) -/

/-- First-occurrence deduplication with an accumulator of already-seen
values. -/
def uniqueFirstAux : List ℕ → List ℕ → List ℕ
  | _, [] => []
  | seen, x :: xs =>
    if x ∈ seen then uniqueFirstAux seen xs else x :: uniqueFirstAux (x :: seen) xs

/-- First-occurrence deduplication, the behaviour of `tf.unique`
(line 124). -/
def uniqueFirst (l : List ℕ) : List ℕ := uniqueFirstAux [] l

/-- Insert index `i` into a list of indices kept in descending order of
`vals`: `i` moves past every index whose value is at least `vals[i]`, so
among equal values the earlier-inserted (smaller) index stays first —
`tf.math.top_k`'s documented tie behaviour. -/
def insertByVal (vals : List ℚ) (i : ℕ) : List ℕ → List ℕ
  | [] => [i]
  | j :: js => if vals.getD j 0 < vals.getD i 0 then i :: j :: js
               else j :: insertByVal vals i js

/-- All indices `0 .. vals.length - 1` sorted by descending `vals`,
ties broken by ascending index. -/
def sortIdxDesc (vals : List ℚ) : List ℕ :=
  (List.range vals.length).foldl (fun acc i => insertByVal vals i acc) []

/-- The indices returned by `tf.math.top_k(vals, k)`: the `k` positions
with the largest values, in descending value order, lower index first on
ties. -/
def topKIdx (k : ℕ) (vals : List ℚ) : List ℕ :=
  (sortIdxDesc vals).take k

/-- The per-channel spread statistic of one batch row, over all spatial
positions (line 119: `tf.math.reduce_std` over all axes except batch and
channel).  The source takes the standard deviation; the model stays in
exact rational arithmetic and computes its square, the variance — the
square root is strictly monotone on nonnegative reals, so the top-k
indices and all ties are identical. -/
def spreadRow (chans : ℕ) (row : List (List ℚ)) : List ℚ :=
  (List.range chans).map (fun c =>
    let col := row.map (fun ch => ch.getD c 0)
    qMean (col.map (fun x => (x - qMean col) ^ 2)))

/-- Lines 123-124: per batch row the top `maxN` indices of the spread
statistic, flattened across the batch in row order
(`tf.reshape(top_k_indices, (-1,))`), then deduplicated (`tf.unique`). -/
def selectedChannelIdx (maxN : ℕ) (t : NTensor) : List ℕ :=
  uniqueFirst ((t.data.map (fun row => topKIdx maxN (spreadRow t.channels row))).flatten)

/-- Line 125: `tf.gather(penultimate_output, top_k_indices, axis=-1)`. -/
def gatherChannels (idxs : List ℕ) (t : NTensor) : NTensor :=
  { spatial := t.spatial, channels := idxs.length,
    data := t.data.map (fun row => row.map (fun ch => idxs.map (fun i => ch.getD i 0))) }

/-- Lines 118-125: when the resolved `max_N` is smaller than the channel
count, gather the deduplicated per-batch top-`max_N` highest-spread
channels; otherwise the activation tensor is left unchanged. -/
def fasterScoreCamFilter (maxN : ℤ) (t : NTensor) : NTensor :=
  if maxN < (t.channels : ℤ) then gatherChannels (selectedChannelIdx maxN.toNat t) t
  else t

/-! ### `max_N` resolution (`scorecam.py` lines 112-117) -/

/-- Modelled from the spec: `get_num_of_steps_allowed` (a
`tf_keras_vis.utils` helper outside the two source files) clamps the
requested step count to an environment-configured limit when a positive
one is set. -/
def getNumOfStepsAllowed (limit : Option ℕ) (n : ℤ) : ℤ :=
  match limit with
  | some l => if 0 < l then min n l else n
  | none => n

/-- Lines 112-117: `None` and `-1` derive the default cap from the channel
count through the steps helper, `0` is rejected, any other value is passed
through the same helper. -/
def resolveMaxN (limit : Option ℕ) (maxN : Option ℤ) (channelCount : ℕ) :
    Except VisError ℤ :=
  match maxN with
  | none => .ok (getNumOfStepsAllowed limit channelCount)
  | some m =>
    if m = -1 then .ok (getNumOfStepsAllowed limit channelCount)
    else if m = 0 then .error .invalidArgument
    else .ok (getNumOfStepsAllowed limit m)

/-! ### Normalization of the upsampled activation maps (lines 135-148) -/

/-- `K.epsilon()`, the Keras fuzz factor `1e-7`, as an exact rational. -/
def epsilonQ : ℚ := 1 / 10000000

/-- The values of channel `c` across the spatial positions of one batch
row (the axis set `range(ndim)[1:-1]` that `np.min`/`np.max` reduce
over). -/
def channelColumn (row : List (List ℚ)) (c : ℕ) : List ℚ :=
  row.map (fun ch => ch.getD c 0)

/-- Lines 135-148: per batch element and channel, subtract the spatial
minimum and divide by `max - min + K.epsilon()`. -/
def normalizeActivationMap (m : NTensor) : NTensor :=
  { spatial := m.spatial, channels := m.channels,
    data := m.data.map (fun row =>
      row.map (fun ch => (List.range m.channels).map (fun c =>
        let col := channelColumn row c
        (ch.getD c 0 - qMinL col) / (qMaxL col - qMinL col + epsilonQ)))) }

/-! ### Masked inputs (lines 150-169)

Tiling the seed input once per channel, multiplying by the channel's
normalized map broadcast across the input-channel axis, and reshaping
`(K', batch, spatial..., in_ch)` to `((K')*batch, spatial..., in_ch)`
amounts to: for channel `c` (outer) and batch `b` (inner), the masked copy
`seed[b][s][ic] * norm[b][s][c]`. -/

def maskInput (seed : NTensor) (norm : NTensor) : NTensor :=
  { spatial := seed.spatial, channels := seed.channels,
    data := ((List.range norm.channels).map (fun c =>
      List.zipWith (fun srow nrow =>
        List.zipWith (fun schs nchs => schs.map (fun v => v * nchs.getD c 0)) srow nrow)
        seed.data norm.data)).flatten }

/-! ### Weights (lines 171-182) -/

/-- Line 173: `np.reshape(prediction, (channels, -1, prediction.shape[-1]))`
followed by iteration over the leading axis — channel `c` receives the
`c`-th contiguous chunk of `mid * lastDim` flat entries. -/
def predictionSlice (channels : ℕ) (p : Tensor) (c : ℕ) : Tensor :=
  let lastd := p.shape.getLastD 1
  let mid := p.data.length / (channels * lastd)
  { shape := [mid, lastd], data := (p.data.drop (c * (mid * lastd))).take (mid * lastd) }

/-- Lines 178-180: `np.reshape(w, (batch, -1, channels))` followed by
`np.mean(w, axis=1)` on the flat per-channel score values. -/
def weightsFromScores (batch channels : ℕ) (w : List ℚ) : List (List ℚ) :=
  let mid := w.length / (batch * channels)
  (List.range batch).map (fun b =>
    (List.range channels).map (fun c =>
      qMean ((List.range mid).map (fun m => w.getD (b * (mid * channels) + m * channels + c) 0))))

/-- Lines 181-182: `np.sum(weights, axis=0)` over the per-output weight
matrices. -/
def sumMatrices : List (List (List ℚ)) → List (List ℚ)
  | [] => []
  | [m] => m
  | m :: ms => List.zipWith (List.zipWith (· + ·)) m (sumMatrices ms)

/-- Line 185: `K.batch_dot(penultimate_output, weights)` — per batch
element and spatial position, the channel values dotted with that batch
element's weight vector. -/
def batchDot (t : NTensor) (w : List (List ℚ)) : Cam :=
  { spatial := t.spatial,
    data := t.data.mapIdx (fun b row =>
      row.map (fun ch => qSum (List.zipWith (· * ·) ch (w.getD b [])))) }

/-- Modelled from the spec: `standardize` (a `tf_keras_vis.utils` helper
outside the two source files) rescales each batch element of a map to the
`[0, 1]` range. -/
def standardizeCamMap (c : Cam) : Cam :=
  { spatial := c.spatial,
    data := c.data.map (fun row =>
      row.map (fun x => (x - qMinL row) / (qMaxL row - qMinL row + epsilonQ))) }

/-! ### The engine (`Scorecam.__call__`) -/

/-- The host model and its external collaborators, abstracted per spec §6:
`penultimateOf` is the sub-model produced by the `ModelModifier`
collaborator (absorbing the `penultimate_layer` /
`seek_penultimate_conv_layer` arguments) applied to the seed inputs with
the `training` flag; `predict` is the full model's bulk-prediction
primitive (chunked internally by the batch-size argument); `maxSteps` is
the environment limit consulted by the steps helper.  Mixed-precision
casting (lines 106-107) is the identity in this exact-rational model. -/
structure VisModel where
  numInputs : ℕ
  penultimateOf : List NTensor → Bool → NTensor
  predict : List NTensor → ℕ → List Tensor
  maxSteps : Option ℕ

/-- A seed input as the caller passed it: a single tensor or a list
(line 198 distinguishes the two with `isinstance(seed_input, list)`). -/
inductive SeedInput where
  | single : NTensor → SeedInput
  | ofList : List NTensor → SeedInput

/-- `_get_seed_inputs_for_multiple_inputs` (a `ModelVisualization` method
outside the two source files): modelled from the spec — the seed input is
listified. -/
def seedList : SeedInput → List NTensor
  | .single t => [t]
  | .ofList ts => ts

def seedIsList : SeedInput → Bool
  | .single _ => false
  | .ofList _ => true

/-- The result of `Scorecam.__call__`: a single map or a list of maps. -/
inductive CamResult where
  | tensor : Cam → CamResult
  | list : List Cam → CamResult
deriving DecidableEq, Repr

/-- Lines 118-187 of `Scorecam.__call__` after `max_N` has been resolved:
channel subsampling, per-input upsampling (line 130 pairs
`penultimate_output.shape[:-1]` with `input_shape[:-1]` and appends a unit
channel factor), normalization, masking, bulk prediction, weight
reduction, `batch_dot` and the activation modifier, producing the raw
CAM. -/
def scorecamCam (model : VisModel) (scores : List (Tensor → List ℚ))
    (seeds : List NTensor) (activationModifier : Option (Cam → Cam))
    (batchSize : ℕ) (penult0 : NTensor) (maxN : ℤ) : Cam :=
  let penult := fasterScoreCamFilter maxN penult0
  let channels := penult.channels
  let upsampled := seeds.map (fun X =>
    zoomNT (zoomFactors (penult.data.length :: penult.spatial)
                        (X.data.length :: X.spatial) ++ [1]) penult)
  let normalized := upsampled.map normalizeActivationMap
  let maskedSeedInputs := List.zipWith maskInput seeds normalized
  let preds := model.predict maskedSeedInputs batchSize
  let weightsPer := (scores.zip preds).map (fun sp =>
    let ws := ((List.range channels).map (fun c =>
      sp.1 (predictionSlice channels sp.2 c))).flatten
    weightsFromScores penult.data.length channels ws)
  let weights := sumMatrices weightsPer
  let cam0 := batchDot penult weights
  match activationModifier with
  | some f => f cam0
  | none => cam0

/-- Lines 189-200 of `Scorecam.__call__`: the `expand_cam` branches wrapped
around the raw CAM. -/
def scorecamBody (model : VisModel) (scores : List (Tensor → List ℚ))
    (seedInput : SeedInput) (activationModifier : Option (Cam → Cam))
    (batchSize : ℕ) (expandCam standardizeCam : Bool)
    (penult0 : NTensor) (maxN : ℤ) : CamResult :=
  let seeds := seedList seedInput
  let cam := scorecamCam model scores seeds activationModifier batchSize penult0 maxN
  if ¬ expandCam then
    .tensor (if standardizeCam then standardizeCamMap cam else cam)
  else
    let cams := seeds.map (fun X => zoomCam (zoomFactors cam.fullShape X.fullShape) cam)
    let cams := if standardizeCam then cams.map standardizeCamMap else cams
    if model.numInputs = 1 ∧ seedIsList seedInput = false then
      .tensor (cams.getD 0 { spatial := [], data := [] })
    else .list cams

/-- `Scorecam.__call__` (lines 98-200): obtain the penultimate activation
tensor from the sub-model collaborator, resolve `max_N` (lines 112-117,
raising on `0`), then run the rest of the pipeline. -/
def scorecamCall (model : VisModel) (scores : List (Tensor → List ℚ))
    (seedInput : SeedInput) (activationModifier : Option (Cam → Cam))
    (batchSize : ℕ) (maxN : Option ℤ) (training expandCam standardizeCam : Bool) :
    Except VisError CamResult :=
  let seeds := seedList seedInput
  let penult0 := model.penultimateOf seeds training
  match resolveMaxN model.maxSteps maxN penult0.channels with
  | .error e => .error e
  | .ok m => .ok (scorecamBody model scores seedInput activationModifier
      batchSize expandCam standardizeCam penult0 m)

/-! ## Helper lemmas -/

theorem getD_map_lt {α β : Type} (f : α → β) (l : List α) {i : ℕ}
    (h : i < l.length) (d : β) (d' : α) : (l.map f).getD i d = f (l.getD i d') := by
  rw [List.getD_eq_getElem _ _ (by simpa using h), List.getD_eq_getElem _ _ h,
    List.getElem_map]

theorem getD_range_lt {n i : ℕ} (h : i < n) (d : ℕ) : (List.range n).getD i d = i := by
  rw [List.getD_eq_getElem _ _ (by simpa using h), List.getElem_range]

theorem getD_zip_lt {α β : Type} (l₁ : List α) (l₂ : List β) {i : ℕ}
    (h₁ : i < l₁.length) (h₂ : i < l₂.length) (d₁ : α) (d₂ : β) :
    (l₁.zip l₂).getD i (d₁, d₂) = (l₁.getD i d₁, l₂.getD i d₂) := by
  rw [List.getD_eq_getElem _ _ (by simp [List.length_zip]; omega),
    List.getD_eq_getElem _ _ h₁, List.getD_eq_getElem _ _ h₂, List.getElem_zip]

theorem getD_enum_lt {α : Type} (l : List α) {i : ℕ} (h : i < l.length)
    (d : ℕ × α) (d' : α) : l.enum.getD i d = (i, l.getD i d') := by
  rw [List.getD_eq_getElem _ _ (by simpa using h), List.getD_eq_getElem _ _ h,
    List.getElem_enum]

theorem getD_replicate_lt {α : Type} (a : α) {n i : ℕ} (h : i < n) (d : α) :
    (List.replicate n a).getD i d = a := by
  rw [List.getD_eq_getElem _ _ (by simpa using h), List.getElem_replicate]

theorem getD_mem {α : Type} (l : List α) {i : ℕ} (h : i < l.length) (d : α) :
    l.getD i d ∈ l := by
  rw [List.getD_eq_getElem _ _ h]; exact List.getElem_mem h

/-- Flattening `n` copies of a one-element list yields `n` copies of the
element (Python's `[a] * n`). -/
theorem flatten_replicate_singleton {α : Type} (n : ℕ) (a : α) :
    (List.replicate n [a]).flatten = List.replicate n a := by
  induction n with
  | zero => rfl
  | succ k ih => simp [List.replicate_succ, ih]

/-! ### Fold-based minimum and maximum -/

theorem foldl_min_le_init : ∀ (xs : List ℚ) (a : ℚ), xs.foldl min a ≤ a := by
  intro xs
  induction xs with
  | nil => intro a; exact le_refl a
  | cons x xs ih =>
    intro a
    exact le_trans (ih (min a x)) (min_le_left _ _)

theorem foldl_min_le_mem {xs : List ℚ} {y : ℚ} (h : y ∈ xs) : ∀ (a : ℚ),
    xs.foldl min a ≤ y := by
  induction xs with
  | nil => cases h
  | cons x xs ih =>
    intro a
    rcases List.mem_cons.mp h with h | h
    · subst h
      exact le_trans (foldl_min_le_init xs (min a y)) (min_le_right _ _)
    · exact ih h _

theorem le_foldl_max_init : ∀ (xs : List ℚ) (a : ℚ), a ≤ xs.foldl max a := by
  intro xs
  induction xs with
  | nil => intro a; exact le_refl a
  | cons x xs ih =>
    intro a
    exact le_trans (le_max_left _ _) (ih (max a x))

theorem le_foldl_max_mem {xs : List ℚ} {y : ℚ} (h : y ∈ xs) : ∀ (a : ℚ),
    y ≤ xs.foldl max a := by
  induction xs with
  | nil => cases h
  | cons x xs ih =>
    intro a
    rcases List.mem_cons.mp h with h | h
    · subst h
      exact le_trans (le_max_right _ _) (le_foldl_max_init xs (max a y))
    · exact ih h _

theorem qMinL_le {l : List ℚ} {x : ℚ} (h : x ∈ l) : qMinL l ≤ x := by
  cases l with
  | nil => cases h
  | cons a xs =>
    rcases List.mem_cons.mp h with h | h
    · exact h ▸ foldl_min_le_init xs a
    · exact foldl_min_le_mem h a

theorem le_qMaxL {l : List ℚ} {x : ℚ} (h : x ∈ l) : x ≤ qMaxL l := by
  cases l with
  | nil => cases h
  | cons a xs =>
    rcases List.mem_cons.mp h with h | h
    · exact h ▸ le_foldl_max_init xs a
    · exact le_foldl_max_mem h a

theorem qMinL_le_qMaxL {l : List ℚ} (h : l ≠ []) : qMinL l ≤ qMaxL l := by
  cases l with
  | nil => exact absurd rfl h
  | cons a xs =>
    exact le_trans (qMinL_le (List.mem_cons_self a xs)) (le_qMaxL (List.mem_cons_self a xs))

/-! ### `uniqueFirst` -/

theorem mem_uniqueFirstAux {x : ℕ} : ∀ (seen l : List ℕ),
    (x ∈ uniqueFirstAux seen l ↔ x ∈ l ∧ x ∉ seen) := by
  intro seen l
  induction l generalizing seen with
  | nil => simp [uniqueFirstAux]
  | cons a l ih =>
    by_cases ha : a ∈ seen
    · simp only [uniqueFirstAux, if_pos ha, ih, List.mem_cons]
      constructor
      · tauto
      · rintro ⟨h1 | h1, h2⟩
        · exact absurd (h1 ▸ ha) h2
        · exact ⟨h1, h2⟩
    · simp only [uniqueFirstAux, if_neg ha, List.mem_cons, ih]
      by_cases hxa : x = a
      · subst hxa; tauto
      · tauto

theorem nodup_uniqueFirstAux : ∀ (seen l : List ℕ), (uniqueFirstAux seen l).Nodup := by
  intro seen l
  induction l generalizing seen with
  | nil => simp [uniqueFirstAux]
  | cons a l ih =>
    by_cases ha : a ∈ seen
    · simpa [uniqueFirstAux, if_pos ha] using ih seen
    · simp only [uniqueFirstAux, if_neg ha, List.nodup_cons]
      refine ⟨fun hc => ?_, ih _⟩
      exact ((mem_uniqueFirstAux _ _).mp hc).2 (List.mem_cons_self a seen)

theorem mem_uniqueFirst {x : ℕ} {l : List ℕ} : x ∈ uniqueFirst l ↔ x ∈ l := by
  simp [uniqueFirst, mem_uniqueFirstAux]

theorem nodup_uniqueFirst (l : List ℕ) : (uniqueFirst l).Nodup :=
  nodup_uniqueFirstAux [] l

/-! ### The descending stable index sort behind `tf.math.top_k` -/

theorem mem_insertByVal {vals : List ℚ} {i a : ℕ} : ∀ {l : List ℕ},
    (a ∈ insertByVal vals i l ↔ a = i ∨ a ∈ l) := by
  intro l
  induction l with
  | nil => simp [insertByVal]
  | cons j js ih =>
    by_cases h : vals.getD j 0 < vals.getD i 0
    · simp only [insertByVal]
      rw [if_pos h]
      simp [List.mem_cons]
    · simp only [insertByVal]
      rw [if_neg h]
      simp only [List.mem_cons, ih]
      tauto

theorem length_insertByVal (vals : List ℚ) (i : ℕ) : ∀ (l : List ℕ),
    (insertByVal vals i l).length = l.length + 1 := by
  intro l
  induction l with
  | nil => rfl
  | cons j js ih =>
    by_cases h : vals.getD j 0 < vals.getD i 0
    · simp only [insertByVal]
      rw [if_pos h]
      simp
    · simp only [insertByVal]
      rw [if_neg h]
      simp only [List.length_cons, ih]

/-- The ordering invariant maintained by the sort: later entries have
values no larger than earlier entries. -/
def IdxDescBy (vals : List ℚ) (l : List ℕ) : Prop :=
  l.Pairwise (fun i j => vals.getD j 0 ≤ vals.getD i 0)

theorem idxDescBy_insertByVal {vals : List ℚ} {i : ℕ} : ∀ {l : List ℕ},
    IdxDescBy vals l → IdxDescBy vals (insertByVal vals i l) := by
  intro l hl
  induction l with
  | nil => simp [insertByVal, IdxDescBy]
  | cons j js ih =>
    rcases List.pairwise_cons.mp hl with ⟨hj, hjs⟩
    unfold IdxDescBy at *
    simp only [insertByVal]
    by_cases h : vals.getD j 0 < vals.getD i 0
    · rw [if_pos h]
      refine List.pairwise_cons.mpr ⟨?_, hl⟩
      intro a ha
      rcases List.mem_cons.mp ha with ha | ha
      · exact ha ▸ le_of_lt h
      · exact le_trans (hj a ha) (le_of_lt h)
    · rw [if_neg h]
      refine List.pairwise_cons.mpr ⟨?_, ih hjs⟩
      intro a ha
      rcases mem_insertByVal.mp ha with ha | ha
      · exact ha ▸ le_of_not_lt h
      · exact hj a ha

theorem nodup_insertByVal {vals : List ℚ} {i : ℕ} : ∀ {l : List ℕ},
    i ∉ l → l.Nodup → (insertByVal vals i l).Nodup := by
  intro l hi hl
  induction l with
  | nil => simp [insertByVal]
  | cons j js ih =>
    rcases List.nodup_cons.mp hl with ⟨hj, hjs⟩
    simp only [insertByVal]
    by_cases h : vals.getD j 0 < vals.getD i 0
    · rw [if_pos h]
      exact List.nodup_cons.mpr ⟨hi, hl⟩
    · rw [if_neg h]
      refine List.nodup_cons.mpr ⟨?_, ih (fun hc => hi (List.mem_cons.mpr (Or.inr hc))) hjs⟩
      intro hc
      rcases mem_insertByVal.mp hc with hc | hc
      · exact hi (List.mem_cons.mpr (Or.inl hc.symm))
      · exact hj hc

theorem mem_foldl_insertByVal {vals : List ℚ} {j : ℕ} : ∀ (l : List ℕ) (acc : List ℕ),
    (j ∈ l.foldl (fun acc i => insertByVal vals i acc) acc ↔ j ∈ acc ∨ j ∈ l) := by
  intro l
  induction l with
  | nil => simp
  | cons a l ih =>
    intro acc
    rw [List.foldl_cons, ih, mem_insertByVal, List.mem_cons]
    tauto

theorem idxDescBy_foldl_insertByVal {vals : List ℚ} : ∀ (l : List ℕ) (acc : List ℕ),
    IdxDescBy vals acc → IdxDescBy vals (l.foldl (fun acc i => insertByVal vals i acc) acc) := by
  intro l
  induction l with
  | nil => exact fun acc h => h
  | cons a l ih => exact fun acc h => ih _ (idxDescBy_insertByVal h)

theorem nodup_foldl_insertByVal {vals : List ℚ} : ∀ (l : List ℕ) (acc : List ℕ),
    acc.Nodup → l.Nodup → (∀ x ∈ l, x ∉ acc) →
    (l.foldl (fun acc i => insertByVal vals i acc) acc).Nodup := by
  intro l
  induction l with
  | nil => exact fun acc h _ _ => h
  | cons a l ih =>
    intro acc hacc hl hd
    rcases List.nodup_cons.mp hl with ⟨ha, hl'⟩
    refine ih _ (nodup_insertByVal (hd a (List.mem_cons_self a l)) hacc) hl' ?_
    intro x hx hc
    rcases mem_insertByVal.mp hc with hc | hc
    · exact ha (hc ▸ hx)
    · exact hd x (List.mem_cons.mpr (Or.inr hx)) hc

theorem length_foldl_insertByVal {vals : List ℚ} : ∀ (l : List ℕ) (acc : List ℕ),
    (l.foldl (fun acc i => insertByVal vals i acc) acc).length = acc.length + l.length := by
  intro l
  induction l with
  | nil => simp
  | cons a l ih =>
    intro acc
    rw [List.foldl_cons, ih, length_insertByVal]
    simp only [List.length_cons]
    omega

theorem mem_sortIdxDesc {vals : List ℚ} {j : ℕ} :
    j ∈ sortIdxDesc vals ↔ j < vals.length := by
  rw [sortIdxDesc, mem_foldl_insertByVal]
  simp [List.mem_range]

theorem length_sortIdxDesc (vals : List ℚ) : (sortIdxDesc vals).length = vals.length := by
  rw [sortIdxDesc, length_foldl_insertByVal]
  simp

theorem nodup_sortIdxDesc (vals : List ℚ) : (sortIdxDesc vals).Nodup :=
  nodup_foldl_insertByVal _ _ List.nodup_nil (List.nodup_range _) (by simp)

theorem idxDescBy_sortIdxDesc (vals : List ℚ) : IdxDescBy vals (sortIdxDesc vals) :=
  idxDescBy_foldl_insertByVal _ _ List.Pairwise.nil

theorem mem_topKIdx_lt {k : ℕ} {vals : List ℚ} {i : ℕ} (h : i ∈ topKIdx k vals) :
    i < vals.length :=
  mem_sortIdxDesc.mp (List.mem_of_mem_take h)

theorem length_topKIdx (k : ℕ) (vals : List ℚ) :
    (topKIdx k vals).length = min k vals.length := by
  rw [topKIdx, List.length_take, length_sortIdxDesc]

theorem nodup_topKIdx (k : ℕ) (vals : List ℚ) : (topKIdx k vals).Nodup :=
  (nodup_sortIdxDesc vals).sublist (List.take_sublist _ _)

/-- The top-k property: every index kept by `topKIdx` has a value at least
as large as every index it leaves out. -/
theorem topKIdx_ge {k : ℕ} {vals : List ℚ} {i j : ℕ}
    (hi : i ∈ topKIdx k vals) (hj : j < vals.length) (hj2 : j ∉ topKIdx k vals) :
    vals.getD j 0 ≤ vals.getD i 0 := by
  have hsplit : sortIdxDesc vals = topKIdx k vals ++ (sortIdxDesc vals).drop k :=
    (List.take_append_drop k (sortIdxDesc vals)).symm
  have hpw := idxDescBy_sortIdxDesc vals
  rw [IdxDescBy, hsplit, List.pairwise_append] at hpw
  have hjmem : j ∈ (sortIdxDesc vals).drop k := by
    have : j ∈ sortIdxDesc vals := mem_sortIdxDesc.mpr hj
    rw [hsplit] at this
    exact (List.mem_append.mp this).resolve_left hj2
  exact hpw.2.2 i hi j hjmem

/-! ### `foldr Nat.max`, the model of Python's `max(...)` -/

theorem foldrMax_le {l : List ℕ} {x : ℕ} (h : x ∈ l) : x ≤ l.foldr Nat.max 0 := by
  induction l with
  | nil => cases h
  | cons a l ih =>
    rw [List.foldr_cons]
    rcases List.mem_cons.mp h with h | h
    · subst h; exact Nat.le_max_left _ _
    · exact le_trans (ih h) (Nat.le_max_right _ _)

theorem foldrMax_mem {l : List ℕ} (h : l ≠ []) : l.foldr Nat.max 0 ∈ l := by
  induction l with
  | nil => exact absurd rfl h
  | cons a l ih =>
    rw [List.foldr_cons]
    have hleft : ∀ x y : ℕ, y ≤ x → Nat.max x y = x := fun x y h => Nat.max_eq_left h
    have hright : ∀ x y : ℕ, x ≤ y → Nat.max x y = y := fun x y h => Nat.max_eq_right h
    by_cases hl : l = []
    · subst hl
      rw [List.foldr_nil, hleft a 0 (Nat.zero_le a)]
      exact List.mem_cons_self a []
    · rcases Nat.le_total a (l.foldr Nat.max 0) with hch | hch
      · rw [hright _ _ hch]
        exact List.mem_cons.mpr (Or.inr (ih hl))
      · rw [hleft _ _ hch]
        exact List.mem_cons_self a l

theorem qMean_singleton (x : ℚ) : qMean [x] = x := by
  simp [qMean, qSum]

/-! ## Claim theorems -/

/-- Claim C9: `InactiveScore.__call__` returns a tensor of the same shape
as its input in which every element is zero, whatever the input values. -/
theorem inactive_score_zero (t : Tensor) :
    (inactiveCall t).shape = t.shape ∧
    (inactiveCall t).data = List.replicate t.data.length 0 := by
  refine ⟨rfl, ?_⟩
  obtain ⟨sh, d⟩ := t
  simp only [inactiveCall]
  induction d with
  | nil => rfl
  | cons x d ih => simp [List.replicate_succ, ih]

/-- Claim C6: constructing `BinaryScore` or `CategoricalScore` from an
empty list or from a list containing a null entry raises an
invalid-argument error; with a non-empty list of non-null entries,
construction succeeds. -/
theorem score_constructor_validation :
    binaryInit [] = .error .invalidArgument ∧
    categoricalInit [] = .error .invalidArgument ∧
    (∀ l : List (Option Bool), none ∈ l → binaryInit l = .error .invalidArgument) ∧
    (∀ l : List (Option ℕ), none ∈ l → categoricalInit l = .error .invalidArgument) ∧
    (∀ l : List (Option Bool), l ≠ [] → none ∉ l → isOkE (binaryInit l) = true) ∧
    (∀ l : List (Option ℕ), l ≠ [] → none ∉ l → isOkE (categoricalInit l) = true) := by
  refine ⟨by decide, by decide, ?_, ?_, ?_, ?_⟩
  · intro l h
    simp [binaryInit, h]
  · intro l h
    simp [categoricalInit, h]
  · intro l h hn
    simp [binaryInit, hn, h, isOkE]
  · intro l h hn
    simp [categoricalInit, hn, h, isOkE]

/-- Witness for C6 at concrete inputs. -/
theorem score_constructor_validation_instance :
    binaryInit [some true, none] = .error .invalidArgument ∧
    categoricalInit [none] = .error .invalidArgument ∧
    isOkE (binaryInit [some false]) = true ∧
    isOkE (categoricalInit [some 2]) = true :=
  ⟨score_constructor_validation.2.2.1 _ (by decide),
   score_constructor_validation.2.2.2.1 _ (by decide),
   score_constructor_validation.2.2.2.2.1 _ (by decide) (by decide),
   score_constructor_validation.2.2.2.2.2 _ (by decide) (by decide)⟩

/-- Claim C2: `Scorecam.__call__` with `max_N = 0` raises an
invalid-argument error, and `max_N = None` and `max_N = -1` resolve
identically and produce identical results for any fixed model, scores and
seed input. -/
theorem scorecam_maxN_contract (model : VisModel) (scores : List (Tensor → List ℚ))
    (seedInput : SeedInput) (activationModifier : Option (Cam → Cam))
    (batchSize : ℕ) (training expandCam standardizeCam : Bool) :
    scorecamCall model scores seedInput activationModifier batchSize (some 0)
        training expandCam standardizeCam = .error .invalidArgument ∧
    scorecamCall model scores seedInput activationModifier batchSize none
        training expandCam standardizeCam =
      scorecamCall model scores seedInput activationModifier batchSize (some (-1))
        training expandCam standardizeCam :=
  ⟨rfl, rfl⟩

/-- Counterexample for C5 as frozen: on a rank-1 output, an out-of-range
index does not raise the invalid-index error (the invalid-shape check
fires first), so "invalid-index error iff some index ≥ channel count"
fails. -/
theorem categorical_index_error_iff_cex :
    ¬ (categoricalCall [5] { shape := [2], data := [0, 0] } = .error .invalidIndex ↔
        ∃ i ∈ [5], Tensor.lastDim { shape := [2], data := [0, 0] } ≤ i) := by
  decide

/-- Claim C5 (amended): `CategoricalScore.__call__` raises the
invalid-shape error iff the output rank is below 2, and raises the
invalid-index error iff the rank is at least 2 and some configured index
is at least the channel count. -/
theorem categorical_call_error_conditions (indices : List ℕ) (t : Tensor)
    (hne : indices ≠ []) :
    (categoricalCall indices t = .error .invalidShape ↔ t.ndim < 2) ∧
    (categoricalCall indices t = .error .invalidIndex ↔
      (2 ≤ t.ndim ∧ ∃ i ∈ indices, t.lastDim ≤ i)) := by
  unfold categoricalCall
  by_cases h1 : t.ndim < 2
  · rw [if_pos h1]
    refine ⟨⟨fun _ => h1, fun _ => rfl⟩, ⟨?_, ?_⟩⟩
    · intro h
      exact absurd (Except.error.inj h) (by decide)
    · intro h
      omega
  · rw [if_neg h1]
    by_cases h2 : t.lastDim ≤ indices.foldr Nat.max 0
    · rw [if_pos h2]
      refine ⟨⟨?_, fun h => absurd h h1⟩, ⟨?_, fun _ => rfl⟩⟩
      · intro h
        exact absurd (Except.error.inj h) (by decide)
      · intro _
        exact ⟨by omega, ⟨_, foldrMax_mem hne, h2⟩⟩
    · rw [if_neg h2]
      refine ⟨⟨fun h => Except.noConfusion h, fun h => absurd h h1⟩,
              ⟨fun h => Except.noConfusion h, ?_⟩⟩
      rintro ⟨-, i, hi, hle⟩
      exact absurd (le_trans hle (foldrMax_le hi)) h2

/-- Witness for C5 at a concrete rank-2 output. -/
theorem categorical_call_error_conditions_instance :
    (categoricalCall [1] { shape := [1, 3], data := [1, 2, 3] } = .error .invalidShape ↔
      Tensor.ndim { shape := [1, 3], data := [1, 2, 3] } < 2) ∧
    (categoricalCall [1] { shape := [1, 3], data := [1, 2, 3] } = .error .invalidIndex ↔
      (2 ≤ Tensor.ndim { shape := [1, 3], data := [1, 2, 3] } ∧
        ∃ i ∈ [1], Tensor.lastDim { shape := [1, 3], data := [1, 2, 3] } ≤ i)) :=
  categorical_call_error_conditions [1] _ (by decide)

/-- Counterexample for C3 as frozen: two configured indices against a
batch of three produce a result of length two, not of length `batch`. -/
theorem categorical_call_batch_shape_cex :
    Except.map List.length
        (categoricalCall [0, 0] { shape := [3, 2], data := [1, 2, 3, 4, 5, 6] }) ≠
      .ok (Tensor.batchDim { shape := [3, 2], data := [1, 2, 3, 4, 5, 6] }) := by
  decide

/-- Claim C3 (amended): on a rank-≥2 output whose channel count exceeds
every configured index, provided exactly one index is configured or
exactly one per batch element, `CategoricalScore.__call__` selects
`output[i, ..., index]` per batch element (broadcasting a single index),
stacks the selections and reduces them by mean over non-batch dimensions,
yielding one value per batch element; for a single index and batch size 1
on a rank-2 output the result is `output[0, i]`. -/
theorem categorical_call_select_stack_mean (indices : List ℕ) (t : Tensor)
    (hne : indices ≠ [])
    (hrank : 2 ≤ t.ndim)
    (hidx : ∀ i ∈ indices, i < t.lastDim)
    (hb : 0 < t.batchDim)
    (hcount : indices.length = 1 ∨ indices.length = t.batchDim) :
    ∃ r, categoricalCall indices t = .ok r ∧
      r.length = t.batchDim ∧
      (∀ b, b < t.batchDim →
        r.getD b 0 = qMean (catSliceValues t b
          (if indices.length = 1 then indices.getD 0 0 else indices.getD b 0))) ∧
      (t.ndim = 2 → t.batchDim = 1 → indices.length = 1 →
        r = [t.data.getD (indices.getD 0 0) 0]) := by
  have hnotlt : ¬ t.ndim < 2 := by omega
  have hmax : ¬ (t.lastDim ≤ indices.foldr Nat.max 0) :=
    not_le.mpr (hidx _ (foldrMax_mem hne))
  unfold categoricalCall
  rw [if_neg hnotlt, if_neg hmax]
  by_cases hbc : indices.length = 1 ∧ indices.length < t.batchDim
  · obtain ⟨a, ha⟩ := List.length_eq_one.mp hbc.1
    have hblt : 1 < t.batchDim := hbc.1 ▸ hbc.2
    rw [if_pos hbc, ha, flatten_replicate_singleton]
    refine ⟨_, rfl, ?_, ?_, ?_⟩
    · rw [List.length_map, List.enum_length, List.length_replicate]
    · intro b hbb
      have h1 : b < (List.replicate t.batchDim a).length := by
        rw [List.length_replicate]; exact hbb
      have h2 : b < (List.replicate t.batchDim a).enum.length := by
        rw [List.enum_length]; exact h1
      rw [getD_map_lt _ _ h2 0 (0, 0), getD_enum_lt _ h1 (0, 0) 0,
        getD_replicate_lt a hbb 0]
      simp
    · intro _ hb1 _
      omega
  · rw [if_neg hbc]
    have hlen : indices.length = t.batchDim := by
      rcases hcount with h | h
      · rcases not_and_or.mp hbc with hc | hc
        · exact absurd h hc
        · omega
      · exact h
    refine ⟨_, rfl, ?_, ?_, ?_⟩
    · rw [List.length_map, List.enum_length, hlen]
    · intro b hbb
      have h1 : b < indices.length := by omega
      have h2 : b < indices.enum.length := by rw [List.enum_length]; exact h1
      rw [getD_map_lt _ _ h2 0 (0, 0), getD_enum_lt _ h1 (0, 0) 0]
      by_cases hl1 : indices.length = 1
      · have hb0 : b = 0 := by omega
        rw [if_pos hl1, hb0]
      · rw [if_neg hl1]
    · intro hnd2 hb1 hl1
      obtain ⟨a, ha⟩ := List.length_eq_one.mp hl1
      rw [ha]
      obtain ⟨s0, s1, hsh⟩ := List.length_eq_two.mp (hnd2 : t.shape.length = 2)
      have hr1 : List.range 1 = [0] := rfl
      simp [List.enum, List.enumFrom, catSliceValues, hsh, hr1, qMean_singleton]

/-- Witness for C3 at a concrete rank-2 output with a broadcast index. -/
theorem categorical_call_select_stack_mean_instance :
    ∃ r, categoricalCall [1] { shape := [2, 3], data := [10, 20, 30, 40, 50, 60] } = .ok r ∧
      r.length = Tensor.batchDim { shape := [2, 3], data := [10, 20, 30, 40, 50, 60] } ∧
      (∀ b, b < Tensor.batchDim { shape := [2, 3], data := [10, 20, 30, 40, 50, 60] } →
        r.getD b 0 = qMean (catSliceValues
          { shape := [2, 3], data := [10, 20, 30, 40, 50, 60] } b
          (if List.length [1] = 1 then List.getD [1] 0 0 else List.getD [1] b 0))) ∧
      (Tensor.ndim { shape := [2, 3], data := [10, 20, 30, 40, 50, 60] } = 2 →
        Tensor.batchDim { shape := [2, 3], data := [10, 20, 30, 40, 50, 60] } = 1 →
        List.length [1] = 1 →
        r = [List.getD [(10 : ℚ), 20, 30, 40, 50, 60] (List.getD [1] 0 0) 0]) :=
  categorical_call_select_stack_mean [1] _ (by decide) (by decide) (by decide)
    (by decide) (by decide)

/-- Counterexample for C4 as frozen: two configured targets against a
batch of three produce a result of length two — not one value "per batch
element". -/
theorem binary_call_batch_shape_cex :
    Except.map List.length (binaryCall [true, true] { shape := [3], data := [1, 2, 3] }) ≠
      .ok (Tensor.batchDim { shape := [3], data := [1, 2, 3] }) := by
  decide

/-- Claim C4 (amended): on an output of shape `(batch,)` or `(batch, 1)`,
provided a single target value is configured or at least `batch` of them
are, `BinaryScore.__call__` returns, per batch element, the raw value for
a positive target and one minus the value for a negative one, with a
single configured target broadcast across the batch; in particular
`BinaryScore([True])` on `[3/10]` gives `[3/10]` and `BinaryScore([False])`
gives `[7/10]`. -/
theorem binary_call_target_semantics (targetValues : List Bool) (t : Tensor)
    (hwf : t.WF)
    (hshape : t.ndim = 1 ∨ (t.ndim = 2 ∧ t.shape.getD 1 0 = 1))
    (hcount : targetValues.length = 1 ∨ t.shape.prod ≤ targetValues.length) :
    (∃ r, binaryCall targetValues t = .ok r ∧
      r.length = t.shape.prod ∧
      ∀ k, k < t.shape.prod →
        r.getD k 0 = (if (if targetValues.length = 1 then targetValues.getD 0 true
                          else targetValues.getD k true) then t.data.getD k 0
                      else 1 - t.data.getD k 0)) ∧
    binaryCall [true] { shape := [1], data := [3/10] } = .ok [3/10] ∧
    binaryCall [false] { shape := [1], data := [3/10] } = .ok [7/10] := by
  refine ⟨?_, by norm_num [binaryCall, Tensor.ndim], by norm_num [binaryCall, Tensor.ndim]⟩
  have hcond : ¬¬(t.ndim = 1 ∨ (t.ndim = 2 ∧ t.shape.getD 1 0 = 1)) := not_not_intro hshape
  unfold binaryCall
  rw [if_neg hcond]
  by_cases hb : targetValues.length = 1 ∧ targetValues.length < t.shape.prod
  · obtain ⟨a, ha⟩ := List.length_eq_one.mp hb.1
    rw [if_pos hb, ha, flatten_replicate_singleton]
    refine ⟨_, rfl, ?_, ?_⟩
    · rw [List.length_map, List.length_zip, List.length_replicate, hwf, min_self]
    · intro k hk
      have hk1 : k < t.data.length := by rw [hwf]; exact hk
      have hk2 : k < (List.replicate t.shape.prod a).length := by
        rw [List.length_replicate]; exact hk
      have hkz : k < (t.data.zip (List.replicate t.shape.prod a)).length := by
        rw [List.length_zip]; omega
      rw [getD_map_lt _ _ hkz 0 (0, true), getD_zip_lt _ _ hk1 hk2 0 true,
        getD_replicate_lt a hk true]
      simp
  · rw [if_neg hb]
    have hlen : t.shape.prod ≤ targetValues.length := by
      rcases hcount with h | h
      · rcases not_and_or.mp hb with hc | hc
        · exact absurd h hc
        · omega
      · exact h
    refine ⟨_, rfl, ?_, ?_⟩
    · rw [List.length_map, List.length_zip, hwf]
      omega
    · intro k hk
      have hk1 : k < t.data.length := by rw [hwf]; exact hk
      have hk2 : k < targetValues.length := by omega
      have hkz : k < (t.data.zip targetValues).length := by
        rw [List.length_zip]; omega
      rw [getD_map_lt _ _ hkz 0 (0, true), getD_zip_lt _ _ hk1 hk2 0 true]
      by_cases h1 : targetValues.length = 1
      · have hk0 : k = 0 := by omega
        rw [if_pos h1, hk0]
      · rw [if_neg h1]

/-- Witness for C4 at a concrete input: three targets, batch of two. -/
theorem binary_call_target_semantics_instance :
    (∃ r, binaryCall [true, false, true] { shape := [2], data := [1, 2] } = .ok r ∧
      r.length = List.prod [2] ∧
      ∀ k, k < List.prod [2] →
        r.getD k 0 = (if (if List.length [true, false, true] = 1
                          then List.getD [true, false, true] 0 true
                          else List.getD [true, false, true] k true)
                      then List.getD [(1 : ℚ), 2] k 0
                      else 1 - List.getD [(1 : ℚ), 2] k 0)) ∧
    binaryCall [true] { shape := [1], data := [3/10] } = .ok [3/10] ∧
    binaryCall [false] { shape := [1], data := [3/10] } = .ok [7/10] :=
  binary_call_target_semantics [true, false, true] { shape := [2], data := [1, 2] }
    (by decide) (by decide) (by decide)

/-- Claim C10: with more than one configured target and a batch size that
differs from the target count, `BinaryScore.__call__` raises no error and
silently returns `min(#targets, batch)` positionally-paired values. -/
theorem binary_call_length_mismatch (targetValues : List Bool) (t : Tensor)
    (hwf : t.WF) (hnd : t.ndim = 1)
    (hmulti : 1 < targetValues.length)
    (hdiff : targetValues.length ≠ t.shape.prod) :
    ∃ r, binaryCall targetValues t = .ok r ∧
      r.length = min targetValues.length t.shape.prod ∧
      ∀ k, k < r.length →
        r.getD k 0 = (if targetValues.getD k true then t.data.getD k 0
                      else 1 - t.data.getD k 0) := by
  have hcond : ¬¬(t.ndim = 1 ∨ (t.ndim = 2 ∧ t.shape.getD 1 0 = 1)) :=
    not_not_intro (Or.inl hnd)
  unfold binaryCall
  rw [if_neg hcond, if_neg (by omega : ¬(targetValues.length = 1 ∧
    targetValues.length < t.shape.prod))]
  refine ⟨_, rfl, ?_, ?_⟩
  · rw [List.length_map, List.length_zip, hwf]
    omega
  · intro k hk
    rw [List.length_map, List.length_zip, hwf] at hk
    have hk1 : k < t.data.length := by rw [hwf]; omega
    have hk2 : k < targetValues.length := by omega
    have hkz : k < (t.data.zip targetValues).length := by
      rw [List.length_zip]; omega
    rw [getD_map_lt _ _ hkz 0 (0, true), getD_zip_lt _ _ hk1 hk2 0 true]

/-- Witness for C10: two targets against a batch of one. -/
theorem binary_call_length_mismatch_instance :
    ∃ r, binaryCall [true, false] { shape := [1], data := [5] } = .ok r ∧
      r.length = min (List.length [true, false]) (List.prod [1]) ∧
      ∀ k, k < r.length →
        r.getD k 0 = (if List.getD [true, false] k true
                      then Tensor.data { shape := [1], data := [5] } |>.getD k 0
                      else 1 - (Tensor.data { shape := [1], data := [5] }).getD k 0) :=
  binary_call_length_mismatch [true, false] { shape := [1], data := [5] }
    (by decide) (by decide) (by decide) (by decide)

theorem spreadRow_length (chans : ℕ) (row : List (List ℚ)) :
    (spreadRow chans row).length = chans := by
  simp [spreadRow]

/-- Claim C1: when the channel count exceeds the resolved `max_N`, the
engine gathers exactly the deduplicated per-batch top-`max_N`
highest-spread channels (spread computed over all axes except batch and
channel); otherwise the activation tensor is unchanged. -/
theorem scorecam_faster_channel_selection (t : NTensor) (maxN : ℤ) (hwf : t.WF) :
    ((t.channels : ℤ) ≤ maxN → fasterScoreCamFilter maxN t = t) ∧
    (maxN < (t.channels : ℤ) →
      fasterScoreCamFilter maxN t = gatherChannels (selectedChannelIdx maxN.toNat t) t ∧
      (selectedChannelIdx maxN.toNat t).Nodup ∧
      (∀ i ∈ selectedChannelIdx maxN.toNat t, i < t.channels) ∧
      (∀ row ∈ t.data,
        (topKIdx maxN.toNat (spreadRow t.channels row)).length = min maxN.toNat t.channels ∧
        (∀ i ∈ topKIdx maxN.toNat (spreadRow t.channels row),
          i ∈ selectedChannelIdx maxN.toNat t ∧
          ∀ j, j < t.channels → j ∉ topKIdx maxN.toNat (spreadRow t.channels row) →
            (spreadRow t.channels row).getD j 0 ≤ (spreadRow t.channels row).getD i 0)) ∧
      (fasterScoreCamFilter maxN t).channels = (selectedChannelIdx maxN.toNat t).length ∧
      (∀ b, b < t.data.length → ∀ s, s < t.spatial.prod →
        ∀ j, j < (selectedChannelIdx maxN.toNat t).length →
          (fasterScoreCamFilter maxN t).entryAt b s j
            = t.entryAt b s ((selectedChannelIdx maxN.toNat t).getD j 0))) := by
  constructor
  · intro h
    unfold fasterScoreCamFilter
    rw [if_neg (not_lt.mpr h)]
  · intro h
    have heq : fasterScoreCamFilter maxN t
        = gatherChannels (selectedChannelIdx maxN.toNat t) t := by
      unfold fasterScoreCamFilter
      rw [if_pos h]
    refine ⟨heq, nodup_uniqueFirst _, ?_, ?_, ?_, ?_⟩
    · intro i hi
      obtain ⟨l, hl, hil⟩ := List.mem_flatten.mp (mem_uniqueFirst.mp hi)
      obtain ⟨row, hrow, rfl⟩ := List.mem_map.mp hl
      have := mem_topKIdx_lt hil
      rwa [spreadRow_length] at this
    · intro row hrow
      refine ⟨by rw [length_topKIdx, spreadRow_length], ?_⟩
      intro i hi
      refine ⟨?_, ?_⟩
      · exact mem_uniqueFirst.mpr (List.mem_flatten.mpr
          ⟨_, List.mem_map.mpr ⟨row, hrow, rfl⟩, hi⟩)
      · intro j hj hj2
        exact topKIdx_ge hi (by rw [spreadRow_length]; exact hj) hj2
    · rw [heq]
      rfl
    · intro b hb s hs j hj
      rw [heq]
      have hrow : (t.data.getD b []) ∈ t.data := getD_mem _ hb []
      have hrl : (t.data.getD b []).length = t.spatial.prod := (hwf _ hrow).1
      unfold gatherChannels NTensor.entryAt
      rw [getD_map_lt _ _ hb [] [], getD_map_lt _ _ (by rw [hrl]; exact hs) [] [],
        getD_map_lt _ _ hj 0 0]

/-- Witness for C1 on a 1-batch, 2-position, 3-channel activation tensor
with `max_N = 2`. -/
theorem scorecam_faster_channel_selection_instance :
    fasterScoreCamFilter 2 { spatial := [2], channels := 3, data := [[[1, 5, 1], [1, 9, 1]]] }
      = gatherChannels
          (selectedChannelIdx 2
            { spatial := [2], channels := 3, data := [[[1, 5, 1], [1, 9, 1]]] })
          { spatial := [2], channels := 3, data := [[[1, 5, 1], [1, 9, 1]]] } :=
  ((scorecam_faster_channel_selection _ 2 (by decide)).2 (by decide)).1

theorem epsilonQ_pos : (0 : ℚ) < epsilonQ := by
  norm_num [epsilonQ]

theorem normalize_eps_bound {x e : ℚ} (he : 0 < e) (hx0 : 0 ≤ x) (hx1 : x ≤ 1) :
    |(x - 0) / (1 - 0 + e) - x| ≤ e := by
  have h1e : (0 : ℚ) < 1 + e := by linarith
  rw [sub_zero, sub_zero]
  have hkey : x / (1 + e) - x = -(x * e) / (1 + e) := by
    field_simp
    ring
  rw [hkey, abs_div, abs_neg, abs_of_nonneg (mul_nonneg hx0 (le_of_lt he)),
    abs_of_pos h1e, div_le_iff₀ h1e]
  nlinarith

theorem normalize_entry (m : NTensor) (hwf : m.WF) {b s c : ℕ}
    (hb : b < m.data.length) (hs : s < m.spatial.prod) (hc : c < m.channels) :
    (normalizeActivationMap m).entryAt b s c =
      (((m.data.getD b []).getD s []).getD c 0
          - qMinL (channelColumn (m.data.getD b []) c))
        / (qMaxL (channelColumn (m.data.getD b []) c)
          - qMinL (channelColumn (m.data.getD b []) c) + epsilonQ) := by
  have hrow : (m.data.getD b []) ∈ m.data := getD_mem _ hb []
  have hrl : (m.data.getD b []).length = m.spatial.prod := (hwf _ hrow).1
  unfold normalizeActivationMap NTensor.entryAt
  rw [getD_map_lt _ _ hb [] [], getD_map_lt _ _ (by rw [hrl]; exact hs) [] [],
    getD_map_lt _ _ (by simpa using hc) 0 0, getD_range_lt hc 0]

/-- Claim C8: the per-batch-element-and-channel min-max normalization of
the upsampled activation maps has an always-positive denominator thanks to
the epsilon guard, keeps every normalized value in `[0, 1]`, and on a map
whose per-channel values already span `[0, 1]` it changes each value by at
most the epsilon. -/
theorem scorecam_normalization_properties (m : NTensor)
    (hwf : m.WF) (hsp : 0 < m.spatial.prod) :
    (∀ row ∈ m.data, ∀ c, c < m.channels →
        0 < qMaxL (channelColumn row c) - qMinL (channelColumn row c) + epsilonQ) ∧
    (∀ b s c, b < m.data.length → s < m.spatial.prod → c < m.channels →
        0 ≤ (normalizeActivationMap m).entryAt b s c ∧
        (normalizeActivationMap m).entryAt b s c ≤ 1) ∧
    ((∀ row ∈ m.data, ∀ c, c < m.channels →
        qMinL (channelColumn row c) = 0 ∧ qMaxL (channelColumn row c) = 1) →
      ∀ b s c, b < m.data.length → s < m.spatial.prod → c < m.channels →
        |(normalizeActivationMap m).entryAt b s c - m.entryAt b s c| ≤ epsilonQ) := by
  have hcol_ne : ∀ row ∈ m.data, ∀ c : ℕ, channelColumn row c ≠ [] := by
    intro row hrow c
    have h1 : (channelColumn row c).length = row.length := List.length_map _ _
    rw [(hwf _ hrow).1] at h1
    exact List.length_pos.mp (h1 ▸ hsp)
  have hdenom : ∀ row ∈ m.data, ∀ c : ℕ,
      0 < qMaxL (channelColumn row c) - qMinL (channelColumn row c) + epsilonQ := by
    intro row hrow c
    have := qMinL_le_qMaxL (hcol_ne row hrow c)
    have := epsilonQ_pos
    linarith
  have hxmem : ∀ b s c, b < m.data.length → s < m.spatial.prod →
      ((m.data.getD b []).getD s []).getD c 0 ∈ channelColumn (m.data.getD b []) c := by
    intro b s c hb hs
    have hrow : (m.data.getD b []) ∈ m.data := getD_mem _ hb []
    have hch : (m.data.getD b []).getD s [] ∈ m.data.getD b [] :=
      getD_mem _ (by rw [(hwf _ hrow).1]; exact hs) []
    exact List.mem_map_of_mem (fun ch => ch.getD c 0) hch
  refine ⟨fun row hrow c _ => hdenom row hrow c, ?_, ?_⟩
  · intro b s c hb hs hc
    have hrow : (m.data.getD b []) ∈ m.data := getD_mem _ hb []
    have hx := hxmem b s c hb hs
    have hd := hdenom _ hrow c
    rw [normalize_entry m hwf hb hs hc]
    constructor
    · exact div_nonneg (sub_nonneg.mpr (qMinL_le hx)) (le_of_lt hd)
    · rw [div_le_one hd]
      have := le_qMaxL hx
      have := epsilonQ_pos
      linarith
  · intro hspan b s c hb hs hc
    have hrow : (m.data.getD b []) ∈ m.data := getD_mem _ hb []
    have hx := hxmem b s c hb hs
    obtain ⟨hmin, hmax⟩ := hspan _ hrow c hc
    have hx0 : (0 : ℚ) ≤ ((m.data.getD b []).getD s []).getD c 0 := by
      have h := qMinL_le hx
      rw [hmin] at h
      exact h
    have hx1 : ((m.data.getD b []).getD s []).getD c 0 ≤ 1 := by
      have h := le_qMaxL hx
      rw [hmax] at h
      exact h
    rw [normalize_entry m hwf hb hs hc, hmin, hmax]
    exact normalize_eps_bound epsilonQ_pos hx0 hx1

theorem fasterScoreCamFilter_spatial (maxN : ℤ) (t : NTensor) :
    (fasterScoreCamFilter maxN t).spatial = t.spatial := by
  unfold fasterScoreCamFilter gatherChannels
  split <;> rfl

theorem batchDot_spatial (t : NTensor) (w : List (List ℚ)) :
    (batchDot t w).spatial = t.spatial := rfl

theorem standardizeCamMap_spatial (c : Cam) : (standardizeCamMap c).spatial = c.spatial := rfl

theorem scorecamCam_spatial (model : VisModel) (scores : List (Tensor → List ℚ))
    (seeds : List NTensor) (aM : Option (Cam → Cam)) (bs : ℕ) (penult0 : NTensor) (maxN : ℤ)
    (hmod : ∀ f c, aM = some f → (f c).spatial = c.spatial) :
    (scorecamCam model scores seeds aM bs penult0 maxN).spatial = penult0.spatial := by
  cases aM with
  | none => simp only [scorecamCam, batchDot_spatial, fasterScoreCamFilter_spatial]
  | some f =>
    simp only [scorecamCam]
    rw [hmod f _ rfl, batchDot_spatial, fasterScoreCamFilter_spatial]

theorem zip_append_left {α β : Type} : ∀ (l : List α) (l' l'' : List β),
    l.length = l'.length → l.zip (l' ++ l'') = l.zip l' := by
  intro l
  induction l with
  | nil => intro l' l'' _; rfl
  | cons a l ih =>
    intro l' l'' h
    cases l' with
    | nil => simp at h
    | cons b l' =>
      rw [List.cons_append, List.zip_cons_cons, List.zip_cons_cons,
        ih l' l'' (by simpa using h)]

theorem ratRound_natCast (n : ℕ) : ratRound ((n : ℕ) : ℚ) = n := by
  have h : (⌊(n : ℚ) + 1 / 2⌋ : ℤ) = (n : ℤ) := by
    rw [Int.floor_eq_iff]
    constructor
    · push_cast
      linarith
    · push_cast
      linarith
  unfold ratRound
  rw [h, Int.toNat_natCast]

theorem zoomAxes_eq : ∀ (csp xsp : List ℕ), csp.length = xsp.length →
    (∀ d ∈ csp, 0 < d) →
    (csp.zip ((csp.zip xsp).map (fun p => (p.2 : ℚ) / (p.1 : ℚ)))).map
      (fun p => ratRound ((p.1 : ℚ) * p.2)) = xsp := by
  intro csp
  induction csp with
  | nil =>
    intro xsp h _
    cases xsp with
    | nil => rfl
    | cons x xsp => simp at h
  | cons d csp ih =>
    intro xsp h hpos
    cases xsp with
    | nil => simp at h
    | cons x xsp =>
      rw [List.zip_cons_cons, List.map_cons, List.zip_cons_cons, List.map_cons,
        ih xsp (by simpa using h) (fun d' hd' => hpos d' (List.mem_cons.mpr (Or.inr hd')))]
      have hd : (0 : ℚ) < (d : ℚ) := by
        exact_mod_cast hpos d (List.mem_cons_self d csp)
      have hmul : (d : ℚ) * ((x : ℚ) / (d : ℚ)) = (x : ℚ) := by
        rw [mul_comm, div_mul_cancel₀ _ (ne_of_gt hd)]
      simp only [hmul, ratRound_natCast]

theorem zoomCam_spatial (c : Cam) (X : NTensor)
    (hlen : c.spatial.length = X.spatial.length)
    (hpos : ∀ d ∈ c.spatial, 0 < d) :
    (zoomCam (zoomFactors c.fullShape X.fullShape) c).spatial = X.spatial := by
  have hz : (c.data.length :: c.spatial).zip ((X.data.length :: X.spatial) ++ [X.channels])
      = (c.data.length, X.data.length) :: c.spatial.zip X.spatial := by
    rw [zip_append_left _ _ _ (by simp [hlen]), List.zip_cons_cons]
  simp only [zoomCam, zoomFactors, zoomShape, Cam.fullShape, NTensor.fullShape]
  rw [hz]
  simp only [List.map_cons, List.zip_cons_cons, List.tail_cons]
  exact zoomAxes_eq c.spatial X.spatial hlen hpos

theorem resolveMaxN_ok (limit : Option ℕ) (maxN : Option ℤ) (K : ℕ) (h0 : maxN ≠ some 0) :
    ∃ m, resolveMaxN limit maxN K = .ok m := by
  cases maxN with
  | none => exact ⟨_, rfl⟩
  | some m =>
    by_cases h1 : m = -1
    · exact ⟨_, by simp only [resolveMaxN]; rw [if_pos h1]⟩
    · have h2 : m ≠ 0 := fun hc => h0 (hc ▸ rfl)
      exact ⟨_, by simp only [resolveMaxN]; rw [if_neg h1, if_neg h2]⟩

theorem scorecamCall_ok (model : VisModel) (scores : List (Tensor → List ℚ))
    (seedInput : SeedInput) (aM : Option (Cam → Cam)) (bs : ℕ) (maxN : Option ℤ)
    (tr ec sc : Bool) (h0 : maxN ≠ some 0) :
    ∃ m, scorecamCall model scores seedInput aM bs maxN tr ec sc
      = .ok (scorecamBody model scores seedInput aM bs ec sc
          (model.penultimateOf (seedList seedInput) tr) m) := by
  obtain ⟨m, hm⟩ := resolveMaxN_ok model.maxSteps maxN
    (model.penultimateOf (seedList seedInput) tr).channels h0
  refine ⟨m, ?_⟩
  simp only [scorecamCall]
  rw [hm]

theorem scorecamBody_expand (model : VisModel) (scores : List (Tensor → List ℚ))
    (t : NTensor) (aM : Option (Cam → Cam)) (bs : ℕ) (sc : Bool)
    (penult0 : NTensor) (m : ℤ)
    (hinp : model.numInputs = 1)
    (hmod : ∀ f c, aM = some f → (f c).spatial = c.spatial)
    (hrank : penult0.spatial.length = t.spatial.length)
    (hpos : ∀ d ∈ penult0.spatial, 0 < d) :
    (∃ c, scorecamBody model scores (.single t) aM bs true sc penult0 m = .tensor c ∧
        c.spatial = t.spatial) ∧
    (∃ c, scorecamBody model scores (.ofList [t]) aM bs true sc penult0 m = .list [c] ∧
        c.spatial = t.spatial) := by
  have hsp : (scorecamCam model scores [t] aM bs penult0 m).spatial = penult0.spatial :=
    scorecamCam_spatial model scores [t] aM bs penult0 m hmod
  have hzs : (zoomCam (zoomFactors (scorecamCam model scores [t] aM bs penult0 m).fullShape
      t.fullShape) (scorecamCam model scores [t] aM bs penult0 m)).spatial = t.spatial := by
    apply zoomCam_spatial
    · rw [hsp]
      exact hrank
    · rw [hsp]
      exact hpos
  constructor
  · cases sc with
    | false =>
      refine ⟨_, ?_, hzs⟩
      simp [scorecamBody, seedList, seedIsList, hinp]
    | true =>
      refine ⟨_, ?_, by rw [standardizeCamMap_spatial]; exact hzs⟩
      simp [scorecamBody, seedList, seedIsList, hinp]
  · cases sc with
    | false =>
      refine ⟨_, ?_, hzs⟩
      simp [scorecamBody, seedList, seedIsList, hinp]
    | true =>
      refine ⟨_, ?_, by rw [standardizeCamMap_spatial]; exact hzs⟩
      simp [scorecamBody, seedList, seedIsList, hinp]

/-- Claim C7: with `expand_cam` true and a single-input model, a non-list
seed input yields a single map (not wrapped in a list) and a one-element
list seed input yields a one-element list; in both cases the returned map
is resized to the seed input's spatial shape. -/
theorem scorecam_expand_single_input (model : VisModel) (scores : List (Tensor → List ℚ))
    (t : NTensor) (aM : Option (Cam → Cam)) (bs : ℕ) (maxN : Option ℤ) (tr sc : Bool)
    (hinp : model.numInputs = 1)
    (h0 : maxN ≠ some 0)
    (hmod : ∀ f c, aM = some f → (f c).spatial = c.spatial)
    (hrank : (model.penultimateOf [t] tr).spatial.length = t.spatial.length)
    (hpos : ∀ d ∈ (model.penultimateOf [t] tr).spatial, 0 < d) :
    (∃ c, scorecamCall model scores (.single t) aM bs maxN tr true sc = .ok (.tensor c) ∧
        c.spatial = t.spatial) ∧
    (∃ c, scorecamCall model scores (.ofList [t]) aM bs maxN tr true sc = .ok (.list [c]) ∧
        c.spatial = t.spatial) := by
  obtain ⟨m1, hm1⟩ := scorecamCall_ok model scores (.single t) aM bs maxN tr true sc h0
  obtain ⟨m2, hm2⟩ := scorecamCall_ok model scores (.ofList [t]) aM bs maxN tr true sc h0
  simp only [seedList] at hm1 hm2
  obtain ⟨c1, hc1, hs1⟩ := (scorecamBody_expand model scores t aM bs sc
    (model.penultimateOf [t] tr) m1 hinp hmod hrank hpos).1
  obtain ⟨c2, hc2, hs2⟩ := (scorecamBody_expand model scores t aM bs sc
    (model.penultimateOf [t] tr) m2 hinp hmod hrank hpos).2
  refine ⟨⟨c1, ?_, hs1⟩, ⟨c2, ?_, hs2⟩⟩
  · rw [hm1, hc1]
  · rw [hm2, hc2]

/-- Witness for C7 on a one-channel demonstration model. -/
theorem scorecam_expand_single_input_instance :
    (∃ c, scorecamCall
        { numInputs := 1, penultimateOf := fun _ _ => ⟨[1], 1, [[[1]]]⟩,
          predict := fun _ _ => [{ shape := [1, 1], data := [1] }], maxSteps := none }
        [] (.single ⟨[2], 1, [[[1], [2]]]⟩) none 32 none false true true
        = .ok (.tensor c) ∧
      c.spatial = NTensor.spatial ⟨[2], 1, [[[1], [2]]]⟩) ∧
    (∃ c, scorecamCall
        { numInputs := 1, penultimateOf := fun _ _ => ⟨[1], 1, [[[1]]]⟩,
          predict := fun _ _ => [{ shape := [1, 1], data := [1] }], maxSteps := none }
        [] (.ofList [⟨[2], 1, [[[1], [2]]]⟩]) none 32 none false true true
        = .ok (.list [c]) ∧
      c.spatial = NTensor.spatial ⟨[2], 1, [[[1], [2]]]⟩) :=
  scorecam_expand_single_input _ [] _ none 32 none false true rfl (by decide)
    (fun f c h => Option.noConfusion h) (by decide) (by decide)

/-- Witness for C8 on a map already spanning `[0, 1]`. -/
theorem scorecam_normalization_properties_instance :
    |(normalizeActivationMap { spatial := [2], channels := 1, data := [[[0], [1]]] }).entryAt 0 0 0
      - NTensor.entryAt { spatial := [2], channels := 1, data := [[[0], [1]]] } 0 0 0|
      ≤ epsilonQ :=
  (scorecam_normalization_properties { spatial := [2], channels := 1, data := [[[0], [1]]] }
      (by decide) (by decide)).2.2 (by decide) 0 0 0 (by decide) (by decide) (by decide)

end TKV
